import Mathlib

/-!
Shallow embedding of the per-patient missing-data imputer of
`projects/project_2/data_preprocessing.py` (function `missing_data_imputer`,
together with its module-level configuration `TYPICAL_VALUES` and
`IDENTIFIERS`).

Modelling conventions:
* a dataframe cell is `Option ℚ`, `none` standing for NaN;
* the observation table keeps the patient id (`pid`) of each row as a
  separate field, and `featureCols` are the columns of the dataframe with the
  identifier columns `pid` and `Time` removed (the code filters the
  identifiers out of every column list it builds, and never reads `Time`);
* a raised Python exception is modelled by `none` at the `Option` result of
  the whole computation.  Three places can raise: `list.remove("Age")` when
  `Age` is absent from the qualifying columns, `LinearRegression().fit` on an
  empty series, and the `TYPICAL_VALUES[column]` lookup for an unknown name;
* sklearn `LinearRegression` is ordinary least squares; for a single sample
  its centered least-squares problem is degenerate and the fitted slope is 0,
  which agrees with the `olsSlope` formula below because division by zero is
  0 in `ℚ`;
* pandas `quantile(0.25)` uses linear interpolation between order statistics,
  `median` (always with `skipna=True` here) averages the two middle order
  statistics for even length and is NaN on an all-NaN/empty series;
* `numpy.setdiff1d` sorts its result, but the sorted order is only used as a
  loop order in the code, so `columnsForAveraging` keeps the original column
  order (same membership).
-/

/- The Batteries definitions of rational arithmetic are marked
`@[irreducible]`, which blocks `decide` on the concrete tables below; the
claims are settled on concrete inputs by kernel evaluation, so reducibility
is restored here. -/
set_option allowUnsafeReducibility true in
attribute [semireducible] Rat.add Rat.mul Rat.sub Rat.inv Rat.div
  Rat.ofScientific

namespace Imputer

abbrev Cell := Option ℚ

/-- An observation table: the non-identifier feature columns (dataframe
columns are unique, as produced by `read_csv`) and the rows in file order,
each carrying its `pid` and its cells aligned with `featureCols`. -/
structure ObsTable where
  featureCols : List String
  rows : List (ℚ × List Cell)
  colsNodup : featureCols.Nodup

/-- The module constant `TYPICAL_VALUES` of the source, as a partial map;
`none` models a `KeyError` on lookup. -/
def TYPICAL_VALUES : String → Option ℚ
  | "pid" => some 15788.831218741774
  | "Time" => some 7.014398525927875
  | "Age" => some 62.07380889707818
  | "EtCO2" => some 32.88311356434632
  | "PTT" => some 40.09130983590656
  | "BUN" => some 23.192663516538175
  | "Lactate" => some 2.8597155076236422
  | "Temp" => some 36.852135856500034
  | "Hgb" => some 10.628207669881103
  | "HCO3" => some 23.488100167210746
  | "BaseExcess" => some (-1.2392844571830848)
  | "RRate" => some 18.154043187688046
  | "Fibrinogen" => some 262.496911351785
  | "Phosphate" => some 3.612519413287318
  | "WBC" => some 11.738648535345682
  | "Creatinine" => some 1.4957773156474896
  | "PaCO2" => some 41.11569643111729
  | "AST" => some 193.4448880402708
  | "FiO2" => some 0.7016656642357807
  | "Platelets" => some 204.66642639312448
  | "SaO2" => some 93.010527124635
  | "Glucose" => some 142.169406624713
  | "ABPm" => some 82.11727559995713
  | "Magnesium" => some 2.004148832962384
  | "Potassium" => some 4.152729193815373
  | "ABPd" => some 64.01471072970384
  | "Calcium" => some 7.161149186763874
  | "Alkalinephos" => some 97.79616327960757
  | "SpO2" => some 97.6634493216935
  | "Bilirubin_direct" => some 1.390723226703758
  | "Chloride" => some 106.26018538478121
  | "Hct" => some 31.28308971681893
  | "Heartrate" => some 84.52237068276303
  | "Bilirubin_total" => some 1.6409406684190786
  | "TroponinI" => some 7.269239936440605
  | "ABPs" => some 122.3698773806418
  | "pH" => some 7.367231494050988
  | _ => none

/-- Model of `pandas.Series.unique`: distinct values keeping first occurrences. -/
def uniqueFirst : List ℚ → List ℚ
  | [] => []
  | p :: ps => p :: (uniqueFirst ps).filter (fun q => decide (q ≠ p))

/-- The source line `pid = df_train["pid"].unique()`. -/
def pidsOf (t : ObsTable) : List ℚ := uniqueFirst (t.rows.map Prod.fst)

/-- Position of a column name in the table's feature columns. -/
def colIdxOf (t : ObsTable) (c : String) : Nat :=
  t.featureCols.findIdx (fun x => x == c)

/-- Model of `df_train.loc[df_train["pid"] == patient][column]`: the patient's cells
for one column, in row order. -/
def patientSeries (t : ObsTable) (p : ℚ) (c : String) : List Cell :=
  (t.rows.filter (fun r => decide (r.1 = p))).map
    (fun r => r.2.getD (colIdxOf t c) none)

/-- Model of `.isna().sum()` over one patient's rows for one column. -/
def naCount (t : ObsTable) (p : ℚ) (c : String) : Nat :=
  ((patientSeries t p c).filter (fun v => v.isNone)).length

/-- The patient's non-missing values for one column, in row order. -/
def observed (t : ObsTable) (p : ℚ) (c : String) : List ℚ :=
  (patientSeries t p c).filterMap id

/-- Model of `Series.quantile(0.25)` with pandas' default linear interpolation:
position `0.25 * (n - 1)` between the ascending order statistics; NaN
(`none`) on an empty series. -/
def quantile25 (xs : List ℚ) : Option ℚ :=
  if xs = [] then none
  else
    let s := xs.insertionSort (· ≤ ·)
    let n := s.length
    let pos : ℚ := ((n : ℚ) - 1) / 4
    let idx : Nat := (⌊pos⌋).toNat
    let lo := s.getD idx 0
    let hi := s.getD (idx + 1) lo
    some (lo + (pos - (idx : ℚ)) * (hi - lo))

/-- The per-patient NaN counts of one column down the patient index
(the column of `df_na`, identifiers excluded downstream). -/
def naCounts (t : ObsTable) (c : String) : List ℚ :=
  (pidsOf t).map (fun p => (naCount t p c : ℚ))

/-- The source line `column_quantiles[column] = df_na[column].quantile(0.25)`. -/
def colQuantile (t : ObsTable) (c : String) : Option ℚ :=
  quantile25 (naCounts t c)

/-- The test `float(v) <= 8` of the quantile; `float(NaN) <= 8` is `False`. -/
def trendEligible (t : ObsTable) (c : String) : Bool :=
  match colQuantile t c with
  | none => false
  | some v => decide (v ≤ 8)

/-- The list `[k for k, v in column_quantiles.items() if float(v) <= 8]`. -/
def qualifyingCols (t : ObsTable) : List String :=
  t.featureCols.filter (fun c => trendEligible t c)

/-- The qualifying columns after `columns_for_regression.remove("Age")`;
`none` models the `ValueError` raised when `"Age"` is not in the list. -/
def columnsForRegression (t : ObsTable) : Option (List String) :=
  if "Age" ∈ qualifyingCols t then some ((qualifyingCols t).erase "Age")
  else none

/-- Model of `np.setdiff1d(df_train.columns, columns_for_regression)` with the
identifiers filtered out (original order kept; `setdiff1d` sorts, but the
order is only a loop order in the source). -/
def columnsForAveraging (t : ObsTable) (reg : List String) : List String :=
  t.featureCols.filter (fun c => decide (c ∉ reg))

/-- Model of `Series.ffill`: carry the last non-missing value forward. -/
def ffillGo : Option ℚ → List Cell → List Cell
  | _, [] => []
  | last, none :: rest => last :: ffillGo last rest
  | _, some x :: rest => some x :: ffillGo (some x) rest

def ffill (s : List Cell) : List Cell := ffillGo none s

/-- Model of `Series.bfill`: carry the next non-missing value backward. -/
def bfill (s : List Cell) : List Cell := (ffill s.reverse).reverse

/-- The fill `(series.ffill() + series.bfill()) / 2`: elementwise average, NaN when
either side is NaN (leading/trailing gaps). -/
def fillBetween (s : List Cell) : List Cell :=
  List.zipWith
    (fun a b =>
      match a, b with
      | some x, some y => some ((x + y) / 2)
      | _, _ => none)
    (ffill s) (bfill s)

/-- Ordinary least-squares slope of `ys` against the synthetic index
`0, 1, ..., k-1` (what `LinearRegression().fit(X, y).coef_` computes).  For
`k = 1` both numerator and denominator vanish and the quotient is 0 in `ℚ`,
matching sklearn's degenerate single-sample fit. -/
def olsSlope (ys : List ℚ) : ℚ :=
  let k : ℚ := ys.length
  let xs : List ℚ := (List.range ys.length).map (fun i => (i : ℚ))
  let sx := xs.sum
  let sy := ys.sum
  let sxy := (List.zipWith (fun a b => a * b) xs ys).sum
  let sxx := (xs.map (fun x => x * x)).sum
  (k * sxy - sx * sy) / (k * sxx - sx * sx)

/-- One (patient, trend column) step of the trend loop.  Outer `none` is the
`ValueError` of `LinearRegression().fit` on an empty series; `some none` is a
cell that the loop leaves unset (the guard failed), to be zero-filled by the
`fillna(value=0)` that follows the loop. -/
def trendCell (t : ObsTable) (p : ℚ) (c : String) : Option Cell :=
  if naCount t p c ≤ 8 then
    let vals := (fillBetween (patientSeries t p c)).filterMap id
    if vals = [] then none
    else some (some (olsSlope vals))
  else some none

/-- The trend loop down the patient index for one column. -/
def trendVals (t : ObsTable) (c : String) : List ℚ → Option (List Cell)
  | [] => some []
  | p :: ps =>
    match trendCell t p c, trendVals t c ps with
    | some v, some vs => some (v :: vs)
    | _, _ => none

/-- One `<column>_trend` output column after the loop and the subsequent
`fillna(value=0)` on the trend columns. -/
def trendColumn (t : ObsTable) (c : String) : Option (List Cell) :=
  (trendVals t c (pidsOf t)).map (fun vs => vs.map (fun v => some (v.getD 0)))

/-- All `<column>_trend` output columns, in regression-column order. -/
def trendPart (t : ObsTable) : List String → Option (List (String × List Cell))
  | [] => some []
  | c :: cs =>
    match trendColumn t c, trendPart t cs with
    | some v, some vs => some ((c ++ "_trend", v) :: vs)
    | _, _ => none

/-- Model of `Series.median` with `skipna` already applied by the caller: average of
the two middle ascending order statistics, `none` on an empty list. -/
def median (xs : List ℚ) : Option ℚ :=
  let s := xs.insertionSort (· ≤ ·)
  let n := s.length
  if n = 0 then none
  else if n % 2 = 1 then some (s.getD (n / 2) 0)
  else some ((s.getD (n / 2 - 1) 0 + s.getD (n / 2) 0) / 2)

/-- A feature column of `df_train_preprocessed` after both per-patient
loops: a column kept for regression is written by neither loop (all NaN);
any other feature column holds each patient's median of their own
observations (the averaging loop). -/
def featColumn (t : ObsTable) (reg : List String) (c : String) : List Cell :=
  if c ∈ reg then (pidsOf t).map (fun _ => (none : Cell))
  else (pidsOf t).map (fun p => median (observed t p c))

/-- The table `df_train_preprocessed` right before the final fallback fills: the
original feature columns followed by the `_trend` columns.  `none` when the
trend loop raised or the `"Age"` removal raised. -/
def stageA (t : ObsTable) : Option (List (String × List Cell)) :=
  match columnsForRegression t with
  | none => none
  | some reg =>
    match trendPart t reg with
    | none => none
    | some tp =>
      some (t.featureCols.map (fun c => (c, featColumn t reg c)) ++ tp)

/-- The fill `fillna(df_train_preprocessed.median())` on one column: every NaN cell
becomes the column's median over the output table; an all-NaN column has no
median and is unchanged. -/
def fillColMedian (vs : List Cell) : List Cell :=
  match median (vs.filterMap id) with
  | none => vs
  | some m => vs.map (fun v => some (v.getD m))

/-- The final `TYPICAL_VALUES` pass on one column: a column that still has a
NaN is set, whole, to the typical value of its name (`none` models the
`KeyError` for an unknown name); a complete column is untouched. -/
def typicalFill (n : String) (vs : List Cell) : Option (List Cell) :=
  if vs.any (fun v => v.isNone) then
    match TYPICAL_VALUES n with
    | none => none
    | some tv => some (vs.map (fun _ => some tv))
  else some vs

/-- Both fallback fills on one named column. -/
def finalCol (n : String) (vs : List Cell) : Option (List Cell) :=
  typicalFill n (fillColMedian vs)

/-- The fallback fills over the whole column list. -/
def seqCols : List (String × List Cell) → Option (List (String × List Cell))
  | [] => some []
  | (n, vs) :: rest =>
    match finalCol n vs, seqCols rest with
    | some w, some ws => some ((n, w) :: ws)
    | _, _ => none

/-- The per-patient summary table: `pids` is the `pid` column re-attached by
`reset_index`, `cols` the feature and trend columns, each listed down the
patient index. -/
structure OutTable where
  pids : List ℚ
  cols : List (String × List Cell)
deriving DecidableEq

/-- The output dataframe's column names, `pid` first. -/
def OutTable.colNames (o : OutTable) : List String :=
  "pid" :: o.cols.map Prod.fst

/-- Column lookup by name (first match, as for unique pandas columns). -/
def OutTable.getCol (o : OutTable) (c : String) : Option (List Cell) :=
  (o.cols.find? (fun nc => nc.1 == c)).map Prod.snd

/-- The cell of column `c` at position `i` of the patient index. -/
def OutTable.cell (o : OutTable) (c : String) (i : Nat) : Cell :=
  match o.getCol c with
  | none => none
  | some vs => vs.getD i none

/-- The function `missing_data_imputer` of the source; `none` models any
raised exception. -/
def missing_data_imputer (t : ObsTable) : Option OutTable :=
  match stageA t with
  | none => none
  | some a =>
    match seqCols a with
    | none => none
    | some cs => some ⟨pidsOf t, cs⟩

/-! ### Helper lemmas -/

theorem mem_uniqueFirst {q : ℚ} : ∀ {l : List ℚ}, q ∈ uniqueFirst l ↔ q ∈ l := by
  intro l
  induction l with
  | nil => simp [uniqueFirst]
  | cons p ps ih =>
    simp only [uniqueFirst, List.mem_cons, List.mem_filter, ih,
      decide_eq_true_eq]
    by_cases h : q = p <;> simp [h]

theorem nodup_uniqueFirst : ∀ {l : List ℚ}, (uniqueFirst l).Nodup := by
  intro l
  induction l with
  | nil => simp [uniqueFirst]
  | cons p ps ih =>
    rw [uniqueFirst, List.nodup_cons]
    refine ⟨fun hmem => ?_, ih.filter _⟩
    have := (List.mem_filter.mp hmem).2
    simp at this

theorem trendVals_length {t : ObsTable} {c : String} :
    ∀ {ps : List ℚ} {vs : List Cell}, trendVals t c ps = some vs →
      vs.length = ps.length := by
  intro ps
  induction ps with
  | nil => intro vs h; simp only [trendVals, Option.some.injEq] at h; simp [← h]
  | cons p ps ih =>
    intro vs h
    rw [trendVals] at h
    cases hc : trendCell t p c <;> rw [hc] at h
    · exact absurd h (by simp)
    · cases hv : trendVals t c ps <;> rw [hv] at h
      · exact absurd h (by simp)
      · cases h
        simp [ih hv]

theorem trendVals_getElem? {t : ObsTable} {c : String} :
    ∀ {ps : List ℚ} {vs : List Cell} {i : Nat} {p : ℚ},
      trendVals t c ps = some vs → ps[i]? = some p →
      ∃ v, vs[i]? = some v ∧ trendCell t p c = some v := by
  intro ps
  induction ps with
  | nil => intro vs i p _ hp; simp at hp
  | cons q ps ih =>
    intro vs i p h hp
    rw [trendVals] at h
    cases hc : trendCell t q c <;> rw [hc] at h
    · exact absurd h (by simp)
    · cases hv : trendVals t c ps <;> rw [hv] at h
      · exact absurd h (by simp)
      · cases h
        cases i with
        | zero =>
          simp only [List.getElem?_cons_zero, Option.some.injEq] at hp
          subst hp
          exact ⟨_, by simp, hc⟩
        | succ i =>
          simp only [List.getElem?_cons_succ] at hp ⊢
          exact ih hv hp

theorem trendPart_names {t : ObsTable} :
    ∀ {cs : List String} {tp : List (String × List Cell)},
      trendPart t cs = some tp →
      tp.map Prod.fst = cs.map (fun c => c ++ "_trend") := by
  intro cs
  induction cs with
  | nil => intro tp h; simp only [trendPart, Option.some.injEq] at h; simp [← h]
  | cons c cs ih =>
    intro tp h
    rw [trendPart] at h
    cases hc : trendColumn t c <;> rw [hc] at h
    · exact absurd h (by simp)
    · cases hr : trendPart t cs <;> rw [hr] at h
      · exact absurd h (by simp)
      · cases h
        simp [ih hr]

theorem trendPart_mem {t : ObsTable} :
    ∀ {cs : List String} {tp : List (String × List Cell)},
      trendPart t cs = some tp → ∀ b ∈ tp,
      ∃ c ∈ cs, b.1 = c ++ "_trend" ∧ trendColumn t c = some b.2 := by
  intro cs
  induction cs with
  | nil => intro tp h; simp only [trendPart, Option.some.injEq] at h; simp [← h]
  | cons c cs ih =>
    intro tp h b hb
    rw [trendPart] at h
    cases hc : trendColumn t c <;> rw [hc] at h
    · exact absurd h (by simp)
    · cases hr : trendPart t cs <;> rw [hr] at h
      · exact absurd h (by simp)
      · cases h
        rcases List.mem_cons.mp hb with hb | hb
        · exact ⟨c, List.mem_cons_self _ _, by rw [hb], by rw [hb]; exact hc⟩
        · obtain ⟨d, hd, h1, h2⟩ := ih hr b hb
          exact ⟨d, List.mem_cons_of_mem _ hd, h1, h2⟩

theorem append_trend_inj {a b : String} (h : a ++ "_trend" = b ++ "_trend") :
    a = b := by
  have hd : a.data ++ "_trend".data = b.data ++ "_trend".data := by
    have := congrArg String.data h
    simpa [String.data_append] using this
  exact String.ext (List.append_cancel_right hd)

theorem trendPart_find? {t : ObsTable} {c : String} :
    ∀ {cs : List String} {tp : List (String × List Cell)},
      trendPart t cs = some tp → c ∈ cs →
      ∃ v, trendColumn t c = some v ∧
        tp.find? (fun nc => nc.1 == c ++ "_trend") = some (c ++ "_trend", v) := by
  intro cs
  induction cs with
  | nil => intro tp _ hc; simp at hc
  | cons d cs ih =>
    intro tp h hc
    rw [trendPart] at h
    cases hd : trendColumn t d <;> rw [hd] at h
    · exact absurd h (by simp)
    · cases hr : trendPart t cs <;> rw [hr] at h
      · exact absurd h (by simp)
      · cases h
        by_cases hdc : d ++ "_trend" = c ++ "_trend"
        · have hdc' : d = c := append_trend_inj hdc
          subst hdc'
          exact ⟨_, hd, by rw [List.find?_cons_of_pos _ (by simp)]⟩
        · have hne : d ≠ c := fun hh => hdc (by rw [hh])
          have hc' : c ∈ cs := by
            rcases List.mem_cons.mp hc with h1 | h1
            · exact absurd h1.symm hne
            · exact h1
          obtain ⟨v, h1, h2⟩ := ih hr hc'
          refine ⟨v, h1, ?_⟩
          rw [List.find?_cons_of_neg _ (by simpa using hdc), h2]

theorem seqCols_names :
    ∀ {l r : List (String × List Cell)}, seqCols l = some r →
      r.map Prod.fst = l.map Prod.fst := by
  intro l
  induction l with
  | nil => intro r h; simp only [seqCols, Option.some.injEq] at h; simp [← h]
  | cons a l ih =>
    intro r h
    obtain ⟨n, vs⟩ := a
    rw [seqCols] at h
    cases hf : finalCol n vs <;> rw [hf] at h
    · exact absurd h (by simp)
    · cases hr : seqCols l <;> rw [hr] at h
      · exact absurd h (by simp)
      · cases h
        simp [ih hr]

theorem seqCols_mem :
    ∀ {l r : List (String × List Cell)}, seqCols l = some r → ∀ b ∈ r,
      ∃ a ∈ l, a.1 = b.1 ∧ finalCol a.1 a.2 = some b.2 := by
  intro l
  induction l with
  | nil => intro r h; simp only [seqCols, Option.some.injEq] at h; simp [← h]
  | cons a l ih =>
    intro r h b hb
    obtain ⟨n, vs⟩ := a
    rw [seqCols] at h
    cases hf : finalCol n vs <;> rw [hf] at h
    · exact absurd h (by simp)
    · cases hr : seqCols l <;> rw [hr] at h
      · exact absurd h (by simp)
      · cases h
        rcases List.mem_cons.mp hb with hb | hb
        · exact ⟨(n, vs), List.mem_cons_self _ _, by rw [hb], by rw [hb]; exact hf⟩
        · obtain ⟨a, ha, h1, h2⟩ := ih hr b hb
          exact ⟨a, List.mem_cons_of_mem _ ha, h1, h2⟩

theorem seqCols_find? {c : String} :
    ∀ {l r : List (String × List Cell)} {a : String × List Cell},
      seqCols l = some r → l.find? (fun nc => nc.1 == c) = some a →
      ∃ w, finalCol a.1 a.2 = some w ∧
        r.find? (fun nc => nc.1 == c) = some (a.1, w) := by
  intro l
  induction l with
  | nil => intro r a _ hf; simp at hf
  | cons b l ih =>
    intro r a h hf
    obtain ⟨n, vs⟩ := b
    rw [seqCols] at h
    cases hfc : finalCol n vs <;> rw [hfc] at h
    · exact absurd h (by simp)
    · cases hr : seqCols l <;> rw [hr] at h
      · exact absurd h (by simp)
      · cases h
        by_cases hn : n = c
        · rw [List.find?_cons_of_pos _ (by simpa using hn)] at hf
          cases hf
          exact ⟨_, hfc, by rw [List.find?_cons_of_pos _ (by simpa using hn)]⟩
        · rw [List.find?_cons_of_neg _ (by simpa using hn)] at hf
          obtain ⟨w, h1, h2⟩ := ih hr hf
          exact ⟨w, h1, by rw [List.find?_cons_of_neg _ (by simpa using hn), h2]⟩

theorem seqCols_none_of_mem {n : String} {vs : List Cell} :
    ∀ {l : List (String × List Cell)}, (n, vs) ∈ l → finalCol n vs = none →
      seqCols l = none := by
  intro l
  induction l with
  | nil => intro h; simp at h
  | cons b l ih =>
    intro hmem hf
    obtain ⟨m, ws⟩ := b
    rcases List.mem_cons.mp hmem with h1 | h1
    · cases h1
      rw [seqCols, hf]
    · rw [seqCols, ih h1 hf]
      cases finalCol m ws <;> rfl

theorem typicalFill_cells_isSome {n : String} {vs w : List Cell}
    (h : typicalFill n vs = some w) : ∀ v ∈ w, v.isSome = true := by
  rw [typicalFill] at h
  by_cases ha : vs.any (fun v => v.isNone) = true
  · rw [if_pos ha] at h
    cases htv : TYPICAL_VALUES n <;> rw [htv] at h
    · exact absurd h (by simp)
    · cases h
      intro v hv
      obtain ⟨_, _, hvv⟩ := List.mem_map.mp hv
      simp [← hvv]
  · rw [if_neg ha] at h
    cases h
    intro v hv
    have ha' : vs.any (fun v => v.isNone) = false := by
      cases hh : vs.any (fun v => v.isNone)
      · rfl
      · exact absurd hh ha
    have hni := List.any_eq_false.mp ha' v hv
    cases v with
    | none => simp at hni
    | some x => rfl

theorem typicalFill_length {n : String} {vs w : List Cell}
    (h : typicalFill n vs = some w) : w.length = vs.length := by
  rw [typicalFill] at h
  by_cases ha : vs.any (fun v => v.isNone) = true
  · rw [if_pos ha] at h
    cases htv : TYPICAL_VALUES n <;> rw [htv] at h
    · exact absurd h (by simp)
    · cases h; simp
  · rw [if_neg ha] at h
    cases h; rfl

theorem fillColMedian_length (vs : List Cell) :
    (fillColMedian vs).length = vs.length := by
  rw [fillColMedian]
  cases median (vs.filterMap id) <;> simp

theorem finalCol_cells_isSome {n : String} {vs w : List Cell}
    (h : finalCol n vs = some w) : ∀ v ∈ w, v.isSome = true :=
  typicalFill_cells_isSome h

theorem finalCol_length {n : String} {vs w : List Cell}
    (h : finalCol n vs = some w) : w.length = vs.length := by
  rw [finalCol] at h
  rw [typicalFill_length h, fillColMedian_length]

theorem median_eq_none {xs : List ℚ} : median xs = none ↔ xs = [] := by
  constructor
  · intro h
    by_contra hne
    have hlen : ¬xs.length = 0 := fun h0 => hne (List.eq_nil_of_length_eq_zero h0)
    simp only [median, List.length_insertionSort] at h
    rw [if_neg hlen] at h
    by_cases ho : xs.length % 2 = 1
    · rw [if_pos ho] at h; exact absurd h (by simp)
    · rw [if_neg ho] at h; exact absurd h (by simp)
  · intro h; subst h; rfl

theorem quantile25_ne_nil {xs : List ℚ} {v : ℚ} (h : quantile25 xs = some v) :
    xs ≠ [] := by
  intro hn
  rw [quantile25, if_pos hn] at h
  exact absurd h (by simp)

theorem getD_zero_of_all_zero {l : List ℚ} (hl : ∀ x ∈ l, x = 0) (i : Nat) :
    l.getD i 0 = 0 := by
  rw [List.getD_eq_getElem?_getD]
  cases hg : l[i]? with
  | none => rfl
  | some x => exact hl x (List.getElem?_mem hg)

theorem quantile25_all_zero {xs : List ℚ} (hne : xs ≠ [])
    (hz : ∀ x ∈ xs, x = 0) : quantile25 xs = some 0 := by
  rw [quantile25, if_neg hne]
  have hs : ∀ x ∈ xs.insertionSort (· ≤ ·), x = 0 := fun x hx =>
    hz x ((List.perm_insertionSort (· ≤ ·) xs).mem_iff.mp hx)
  simp only [getD_zero_of_all_zero hs]
  simp

theorem stageA_some {t : ObsTable} {a : List (String × List Cell)}
    (h : stageA t = some a) :
    ∃ reg tp, columnsForRegression t = some reg ∧ trendPart t reg = some tp ∧
      a = t.featureCols.map (fun c => (c, featColumn t reg c)) ++ tp := by
  rw [stageA] at h
  split at h
  next => exact absurd h (by simp)
  next reg hr =>
    split at h
    next => exact absurd h (by simp)
    next tp htp =>
      cases h
      exact ⟨reg, tp, hr, htp, rfl⟩

theorem imputer_some {t : ObsTable} {o : OutTable}
    (h : missing_data_imputer t = some o) :
    ∃ a cs, stageA t = some a ∧ seqCols a = some cs ∧
      o = ⟨pidsOf t, cs⟩ := by
  rw [missing_data_imputer] at h
  split at h
  next => exact absurd h (by simp)
  next a ha =>
    split at h
    next => exact absurd h (by simp)
    next cs hc =>
      cases h
      exact ⟨a, cs, ha, hc, rfl⟩

theorem find?_map_pair_of_mem {cols : List String} {c : String}
    (f : String → List Cell) (hc : c ∈ cols) :
    (cols.map (fun d => (d, f d))).find? (fun nc => nc.1 == c) =
      some (c, f c) := by
  induction cols with
  | nil => simp at hc
  | cons d cols ih =>
    by_cases hdc : d = c
    · subst hdc
      simp [List.find?_cons_of_pos]
    · rw [List.map_cons, List.find?_cons_of_neg _ (by simpa using hdc)]
      refine ih ?_
      rcases List.mem_cons.mp hc with h | h
      · exact absurd h.symm hdc
      · exact h

theorem find?_map_pair_of_not_mem {cols : List String} {c : String}
    (f : String → List Cell) (hc : c ∉ cols) :
    (cols.map (fun d => (d, f d))).find? (fun nc => nc.1 == c) = none := by
  induction cols with
  | nil => rfl
  | cons d cols ih =>
    have hdc : d ≠ c := fun h => hc (h ▸ List.mem_cons_self _ _)
    rw [List.map_cons, List.find?_cons_of_neg _ (by simpa using hdc)]
    exact ih (fun h => hc (List.mem_cons_of_mem _ h))

theorem reg_mem_featureCols {t : ObsTable} {reg : List String} {c : String}
    (h : columnsForRegression t = some reg) (hc : c ∈ reg) :
    c ∈ t.featureCols ∧ trendEligible t c = true := by
  rw [columnsForRegression] at h
  by_cases hA : "Age" ∈ qualifyingCols t
  · rw [if_pos hA] at h
    cases h
    have := List.mem_of_mem_erase hc
    exact ⟨(List.mem_filter.mp this).1, (List.mem_filter.mp this).2⟩
  · rw [if_neg hA] at h
    exact absurd h (by simp)

theorem pids_ne_nil_of_reg {t : ObsTable} {reg : List String}
    (h : columnsForRegression t = some reg) : pidsOf t ≠ [] := by
  rw [columnsForRegression] at h
  by_cases hA : "Age" ∈ qualifyingCols t
  · have he : trendEligible t "Age" = true := (List.mem_filter.mp hA).2
    rw [trendEligible] at he
    cases hq : colQuantile t "Age" <;> rw [hq] at he
    · exact absurd he (by simp)
    · have := quantile25_ne_nil hq
      intro hp
      exact this (by rw [naCounts, hp]; rfl)
  · rw [if_neg hA] at h
    exact absurd h (by simp)

theorem any_isNone_false {l : List Cell} (h : ∀ v ∈ l, v.isSome = true) :
    l.any (fun v => v.isNone) = false := by
  rw [List.any_eq_false]
  intro x hx
  have hs := h x hx
  cases x with
  | none => simp at hs
  | some y => simp

theorem typicalFill_of_no_none {n : String} {vs : List Cell}
    (h : ∀ v ∈ vs, v.isSome = true) : typicalFill n vs = some vs := by
  rw [typicalFill, if_neg (by rw [any_isNone_false h]; simp)]

/-- The fallback processing of a surviving feature column `c`: it is the
final output of `finalCol c` applied to the column the two loops produced. -/
theorem feat_finalCol {t : ObsTable} {o : OutTable} {reg : List String}
    {c : String} (h : missing_data_imputer t = some o)
    (hreg : columnsForRegression t = some reg) (hcf : c ∈ t.featureCols) :
    ∃ w, finalCol c (featColumn t reg c) = some w ∧ o.getCol c = some w ∧
      o.pids = pidsOf t := by
  obtain ⟨a, cs, ha, hcs, ho⟩ := imputer_some h
  obtain ⟨reg', tp, hreg', htp, haa⟩ := stageA_some ha
  rw [hreg] at hreg'
  cases hreg'
  subst haa
  have hfind : ((t.featureCols.map (fun d => (d, featColumn t reg d))) ++ tp).find?
      (fun nc => nc.1 == c) = some (c, featColumn t reg c) := by
    rw [List.find?_append, find?_map_pair_of_mem _ hcf]
    rfl
  obtain ⟨w, hw, hwf⟩ := seqCols_find? hcs hfind
  refine ⟨w, hw, ?_, ?_⟩
  · rw [ho, OutTable.getCol]
    simp only
    rw [hwf]
    rfl
  · rw [ho]

theorem fillColMedian_of_median_none {vs : List Cell}
    (h : median (vs.filterMap id) = none) : fillColMedian vs = vs := by
  rw [fillColMedian, h]

theorem fillColMedian_of_median_some {vs : List Cell} {m : ℚ}
    (h : median (vs.filterMap id) = some m) :
    fillColMedian vs = vs.map (fun v => some (v.getD m)) := by
  rw [fillColMedian, h]

theorem cell_of_getCol {o : OutTable} {c : String} {vs : List Cell}
    (h : o.getCol c = some vs) (i : Nat) : o.cell c i = vs.getD i none := by
  rw [OutTable.cell, h]

/-! ### Concrete tables used as witnesses and counterexamples -/

/-- One patient, one row, both cells observed. -/
def egBasic : ObsTable := ⟨["Age", "Hgb"], [(1, [some 50, some 7])], by decide⟩

/-- The summary table the imputer returns on `egBasic`. -/
def egBasicOut : OutTable :=
  ⟨[1], [("Age", [some 50]), ("Hgb", [some 10.628207669881103]),
    ("Hgb_trend", [some 0])]⟩

/-- One patient whose `Hgb` series is `[1, NaN, 3, 4]`. -/
def egSlope : ObsTable :=
  ⟨["Age", "Hgb"],
    [(1, [some 50, some 1]), (1, [some 50, none]),
     (1, [some 50, some 3]), (1, [some 50, some 4])], by decide⟩

/-- The summary table the imputer returns on `egSlope`. -/
def egSlopeOut : OutTable :=
  ⟨[1], [("Age", [some 50]), ("Hgb", [some 10.628207669881103]),
    ("Hgb_trend", [some 1])]⟩

/-- Patient 1 has no `Age` observation, patient 2 has one. -/
def egNoObs : ObsTable :=
  ⟨["Age", "Hgb"], [(1, [none, some 7]), (2, [some 60, some 8])], by decide⟩

/-- The summary table the imputer returns on `egNoObs`. -/
def egNoObsOut : OutTable :=
  ⟨[1, 2], [("Age", [some 60, some 60]),
    ("Hgb", [some 10.628207669881103, some 10.628207669881103]),
    ("Hgb_trend", [some 0, some 0])]⟩

/-- Patient 2 has four rows with `Hgb` missing in all of them, so `Hgb` is
trend-eligible (25th-percentile missing count 1), patient 2's missing count
is 4 ≤ 8, and patient 2 has no usable `Hgb` data at all. -/
def egAllNaN : ObsTable :=
  ⟨["Age", "Hgb"],
    [(1, [some 50, some 7]), (2, [some 60, none]), (2, [some 60, none]),
     (2, [some 60, none]), (2, [some 60, none])], by decide⟩

/-- A feature column name that is not in `TYPICAL_VALUES`. -/
def egUnknownCol : ObsTable :=
  ⟨["Age", "Foo"], [(1, [some 50, some 7])], by decide⟩

/-- Nine rows of one patient with `Age` always missing: the 25th percentile
of the per-patient `Age` missing counts is 9 > 8. -/
def egAgeMissing : ObsTable :=
  ⟨["Age", "Hgb"], List.replicate 9 ((1 : ℚ), [(none : Cell), some 7]),
    by decide⟩

/-- Twelve rows of one patient, `Hgb` missing in exactly 8 of them: the
25th-percentile missing count of `Hgb` is exactly 8. -/
def egBoundary : ObsTable :=
  ⟨["Age", "Hgb"],
    List.replicate 8 ((1 : ℚ), [(some 30 : Cell), none]) ++
      [(1, [some 30, some 1]), (1, [some 30, some 2]),
       (1, [some 30, some 3]), (1, [some 30, some 4])], by decide⟩

/-! ### The claims -/

/-- C6: for every feature column other than `Age` (identifiers are not in
`featureCols`), whenever classification succeeds the column is
trend-eligible iff the 25th percentile of its per-patient missing counts is
at most 8; a column with zero missing values everywhere is always
trend-eligible. -/
theorem trend_eligibility_threshold (t : ObsTable) (reg : List String)
    (c : String) (h : columnsForRegression t = some reg)
    (hc : c ∈ t.featureCols) (hAge : c ≠ "Age") :
    (c ∈ reg ↔ ∃ v, colQuantile t c = some v ∧ v ≤ 8) ∧
    ((∀ p ∈ pidsOf t, naCount t p c = 0) → c ∈ reg) := by
  have hregeq : reg = (qualifyingCols t).erase "Age" := by
    rw [columnsForRegression] at h
    by_cases hA : "Age" ∈ qualifyingCols t
    · rw [if_pos hA] at h; cases h; rfl
    · rw [if_neg hA] at h; exact absurd h (by simp)
  have hiff : c ∈ reg ↔ trendEligible t c = true := by
    rw [hregeq, List.mem_erase_of_ne hAge, qualifyingCols, List.mem_filter]
    exact ⟨fun hh => hh.2, fun hh => ⟨hc, hh⟩⟩
  constructor
  · rw [hiff, trendEligible]
    cases hq : colQuantile t c
    · simp
    · simp
  · intro hz
    rw [hiff, trendEligible]
    have hpne : pidsOf t ≠ [] := pids_ne_nil_of_reg h
    have hnne : naCounts t c ≠ [] := by
      rw [naCounts]
      intro hh
      exact hpne (List.map_eq_nil_iff.mp hh)
    have hzz : ∀ x ∈ naCounts t c, x = 0 := by
      intro x hx
      rw [naCounts] at hx
      obtain ⟨p, hp, hpx⟩ := List.mem_map.mp hx
      rw [← hpx, hz p hp]
      simp
    rw [colQuantile, quantile25_all_zero hnne hzz]
    simp

/-- C6 witness: on `egBoundary` the 25th-percentile missing count of `Hgb`
is exactly 8 and `Hgb` is classified trend-eligible. -/
theorem trend_eligibility_threshold_witness : "Hgb" ∈ (["Hgb"] : List String) :=
  (trend_eligibility_threshold egBoundary ["Hgb"] "Hgb" (by decide) (by decide)
    (by decide)).1.mpr ⟨8, by decide, by decide⟩

/-- C7: whenever column classification succeeds, `Age` is never among the
regression (trend-eligible) columns, and lands in the averaging columns. -/
theorem age_always_average (t : ObsTable) (reg : List String)
    (h : columnsForRegression t = some reg) :
    "Age" ∉ reg ∧ ("Age" ∈ t.featureCols → "Age" ∈ columnsForAveraging t reg) := by
  have hregeq : reg = (qualifyingCols t).erase "Age" := by
    rw [columnsForRegression] at h
    by_cases hA : "Age" ∈ qualifyingCols t
    · rw [if_pos hA] at h; cases h; rfl
    · rw [if_neg hA] at h; exact absurd h (by simp)
  have hnodup : (qualifyingCols t).Nodup := t.colsNodup.filter _
  have hnot : "Age" ∉ reg := by
    rw [hregeq]
    exact hnodup.not_mem_erase
  refine ⟨hnot, fun hf => List.mem_filter.mpr ⟨hf, ?_⟩⟩
  exact decide_eq_true hnot

/-- C7 witness: on `egBasic`, `Age` numerically qualifies (25th-percentile
missing count 0) yet is classified into the averaging columns. -/
theorem age_always_average_witness :
    "Age" ∈ columnsForAveraging egBasic ["Hgb"] :=
  (age_always_average egBasic ["Hgb"] (by decide)).2 (by decide)

/-- C10: if the 25th percentile of the per-patient missing counts of `Age`
exceeds 8, the classification raises (`list.remove` on a list without
`"Age"`) and the imputer returns no table. -/
theorem age_unqualified_raises (t : ObsTable) (v : ℚ)
    (hq : colQuantile t "Age" = some v) (hv : 8 < v) :
    columnsForRegression t = none ∧ missing_data_imputer t = none := by
  have hA : "Age" ∉ qualifyingCols t := by
    intro hmem
    have he : trendEligible t "Age" = true := (List.mem_filter.mp hmem).2
    rw [trendEligible, hq] at he
    exact absurd (of_decide_eq_true he) (not_le.mpr hv)
  have h1 : columnsForRegression t = none := by
    rw [columnsForRegression, if_neg hA]
  refine ⟨h1, ?_⟩
  simp only [missing_data_imputer, stageA, h1]

/-- C10 witness: on `egAgeMissing` the `Age` quantile is 9 and the imputer
raises. -/
theorem age_unqualified_raises_witness :
    columnsForRegression egAgeMissing = none ∧
      missing_data_imputer egAgeMissing = none :=
  age_unqualified_raises egAgeMissing 9 (by decide) (by decide)

/-- C8: if the typical-value fallback is reached for a column whose name is
not in `TYPICAL_VALUES` (the column still has a missing cell after the
output-median fill), the whole imputation call fails and returns no table. -/
theorem missing_typical_value_fatal (t : ObsTable)
    (a : List (String × List Cell)) (n : String) (vs : List Cell)
    (ha : stageA t = some a) (hmem : (n, vs) ∈ a)
    (hna : (fillColMedian vs).any (fun v => v.isNone) = true)
    (htv : TYPICAL_VALUES n = none) :
    missing_data_imputer t = none := by
  have hfc : finalCol n vs = none := by
    rw [finalCol, typicalFill, if_pos hna, htv]
  simp only [missing_data_imputer, ha, seqCols_none_of_mem hmem hfc]

/-- C8 witness: on `egUnknownCol`, the un-suffixed trend-eligible column
`Foo` reaches the typical-value fallback, `Foo` has no typical value, and
the imputer fails. -/
theorem missing_typical_value_fatal_witness :
    missing_data_imputer egUnknownCol = none :=
  missing_typical_value_fatal egUnknownCol
    [("Age", [some 50]), ("Foo", [none]), ("Foo_trend", [some 0])]
    "Foo" [none] (by decide) (by decide) (by decide) (by decide)

/-- C2 (the code, evaluated at the failing input): on `egAllNaN`, `Hgb` is
trend-eligible, patient 2's `Hgb` missing count is 4 ≤ 8 with no observed
value at all, and the imputer raises (`LinearRegression().fit` on an empty
series) instead of producing a row with `Hgb_trend = 0`. -/
theorem allmissing_small_patient_crashes :
    trendEligible egAllNaN "Hgb" = true ∧
    naCount egAllNaN 2 "Hgb" = 4 ∧
    observed egAllNaN 2 "Hgb" = [] ∧
    trendCell egAllNaN 2 "Hgb" = none ∧
    missing_data_imputer egAllNaN = none := by decide

/-- C1: whenever the imputer returns a table, that table has one row per
distinct `pid` of the input (the patient index is duplicate-free and holds
exactly the input's pids), every column has one cell per patient, and no
cell is missing. -/
theorem imputer_output_complete (t : ObsTable) (o : OutTable)
    (h : missing_data_imputer t = some o) :
    o.pids.Nodup ∧
    (∀ q : ℚ, q ∈ o.pids ↔ q ∈ t.rows.map Prod.fst) ∧
    ∀ nc ∈ o.cols, nc.2.length = o.pids.length ∧
      ∀ v ∈ nc.2, v.isSome = true := by
  obtain ⟨a, cs, ha, hcs, ho⟩ := imputer_some h
  obtain ⟨reg, tp, hreg, htp, haa⟩ := stageA_some ha
  subst haa
  subst ho
  refine ⟨nodup_uniqueFirst, fun q => mem_uniqueFirst, ?_⟩
  intro nc hnc
  obtain ⟨b, hb, hb1, hb2⟩ := seqCols_mem hcs nc hnc
  refine ⟨?_, finalCol_cells_isSome hb2⟩
  rw [finalCol_length hb2]
  show b.2.length = (pidsOf t).length
  rcases List.mem_append.mp hb with hbf | hbt
  · obtain ⟨c, hcm, hcb⟩ := List.mem_map.mp hbf
    have hb2' : b.2 = featColumn t reg c := by rw [← hcb]
    rw [hb2', featColumn]
    by_cases hcr : c ∈ reg
    · rw [if_pos hcr]; simp
    · rw [if_neg hcr]; simp
  · obtain ⟨c, hcm, h1, h2⟩ := trendPart_mem htp b hbt
    rw [trendColumn] at h2
    cases htv : trendVals t c (pidsOf t) <;> rw [htv] at h2
    · exact absurd h2 (by simp)
    · simp only [Option.map, Option.some.injEq] at h2
      rw [← h2, List.length_map, trendVals_length htv]

/-- C1 witness: the imputer applied to `egBasic`. -/
theorem imputer_output_complete_witness :
    egBasicOut.pids.Nodup ∧
    (∀ q : ℚ, q ∈ egBasicOut.pids ↔ q ∈ egBasic.rows.map Prod.fst) ∧
    ∀ nc ∈ egBasicOut.cols, nc.2.length = egBasicOut.pids.length ∧
      ∀ v ∈ nc.2, v.isSome = true :=
  imputer_output_complete egBasic egBasicOut (by decide)

/-- C3 counterexample: on `egBasic` the column `Hgb` is trend-eligible, yet
the output's columns are `pid, Age, Hgb, Hgb_trend` — the un-suffixed copy
`Hgb` of the trend-eligible column appears in the output, so the output
column set is not limited to the suffixed trend columns, the average
columns and `pid`. -/
theorem unsuffixed_copy_in_output :
    columnsForRegression egBasic = some ["Hgb"] ∧
    (missing_data_imputer egBasic).map OutTable.colNames =
      some ["pid", "Age", "Hgb", "Hgb_trend"] := by decide

/-- C3 amended: whenever the imputer returns a table, its column names are
exactly `pid` followed by all non-identifier input feature columns under
their original names (including the un-suffixed trend-eligible columns)
followed by the trend-eligible columns with the `_trend` suffix. -/
theorem imputer_column_names (t : ObsTable) (o : OutTable) (reg : List String)
    (h : missing_data_imputer t = some o)
    (hreg : columnsForRegression t = some reg) :
    o.colNames = "pid" :: (t.featureCols ++ reg.map (fun c => c ++ "_trend")) := by
  obtain ⟨a, cs, ha, hcs, ho⟩ := imputer_some h
  obtain ⟨reg', tp, hreg', htp, haa⟩ := stageA_some ha
  rw [hreg] at hreg'
  cases hreg'
  subst haa
  subst ho
  rw [OutTable.colNames]
  congr 1
  show cs.map Prod.fst = _
  rw [seqCols_names hcs, List.map_append, trendPart_names htp]
  congr 1
  rw [List.map_map]
  exact List.map_id _

/-- C3 amended witness: the column names of the output on `egBasic`. -/
theorem imputer_column_names_witness :
    egBasicOut.colNames =
      "pid" :: (egBasic.featureCols ++ ["Hgb"].map (fun c => c ++ "_trend")) :=
  imputer_column_names egBasic egBasicOut ["Hgb"] (by decide) (by decide)

/-- C9: for every trend-eligible column `c`, the returned table still has a
column named `c` (besides `c_trend`), and its cell for every patient is the
fixed typical value of `c` — the column is written by neither loop, stays
all-missing, has no output median, and is set whole by the typical-value
pass. -/
theorem unsuffixed_trend_column_typical (t : ObsTable) (o : OutTable)
    (reg : List String) (c : String)
    (h : missing_data_imputer t = some o)
    (hreg : columnsForRegression t = some reg) (hc : c ∈ reg) :
    ∃ tv, TYPICAL_VALUES c = some tv ∧
      o.getCol c = some ((pidsOf t).map (fun _ => some tv)) := by
  have hcf : c ∈ t.featureCols := (reg_mem_featureCols hreg hc).1
  obtain ⟨w, hw, hcol, _⟩ := feat_finalCol h hreg hcf
  rw [featColumn, if_pos hc] at hw
  have hnil : ((pidsOf t).map (fun _ => (none : Cell))).filterMap id = [] := by
    rw [List.filterMap_eq_nil_iff]
    intro x hx
    obtain ⟨_, _, hxx⟩ := List.mem_map.mp hx
    rw [← hxx]
    rfl
  rw [finalCol, fillColMedian_of_median_none (median_eq_none.mpr hnil),
    typicalFill] at hw
  have hne := pids_ne_nil_of_reg hreg
  have hany : ((pidsOf t).map (fun _ => (none : Cell))).any
      (fun v => v.isNone) = true := by
    cases hp : pidsOf t with
    | nil => exact absurd hp hne
    | cons p ps => rfl
  rw [if_pos hany] at hw
  cases htv : TYPICAL_VALUES c <;> rw [htv] at hw
  · exact absurd hw (by simp)
  · rw [Option.some.injEq] at hw
    refine ⟨_, rfl, ?_⟩
    rw [hcol, ← hw, List.map_map]
    rfl

/-- C9 witness: on `egBasic`, the un-suffixed `Hgb` column of the output is
the typical `Hgb` value for every patient. -/
theorem unsuffixed_trend_column_typical_witness :
    ∃ tv, TYPICAL_VALUES "Hgb" = some tv ∧
      egBasicOut.getCol "Hgb" =
        some ((pidsOf egBasic).map (fun _ => some tv)) :=
  unsuffixed_trend_column_typical egBasic egBasicOut ["Hgb"] "Hgb"
    (by decide) (by decide) (by decide)

/-- C4: a patient with zero observations in an average-only column gets, in
that cell, the median of that column as built over the output table by the
other patients; if that median is undefined (the whole output column is
missing), the cell is exactly the configured typical value of the column
name. -/
theorem avg_fallback_tiers (t : ObsTable) (o : OutTable) (reg : List String)
    (c : String) (i : Nat) (p : ℚ)
    (h : missing_data_imputer t = some o)
    (hreg : columnsForRegression t = some reg)
    (hcf : c ∈ t.featureCols) (hcr : c ∉ reg)
    (hp : (pidsOf t)[i]? = some p) (hobs : observed t p c = []) :
    (∀ m, median ((featColumn t reg c).filterMap id) = some m →
      o.cell c i = some m) ∧
    (median ((featColumn t reg c).filterMap id) = none →
      ∃ tv, TYPICAL_VALUES c = some tv ∧ o.cell c i = some tv) := by
  obtain ⟨w, hw, hcol, _⟩ := feat_finalCol h hreg hcf
  have hFi : (featColumn t reg c)[i]? = some none := by
    rw [featColumn, if_neg hcr, List.getElem?_map, hp]
    show some (median (observed t p c)) = some none
    rw [hobs]
    rfl
  constructor
  · intro m hm
    rw [finalCol, fillColMedian_of_median_some hm] at hw
    have hall : ∀ v ∈ (featColumn t reg c).map (fun v => some (v.getD m)),
        v.isSome = true := by
      intro v hv
      obtain ⟨x, _, hxv⟩ := List.mem_map.mp hv
      rw [← hxv]
      rfl
    rw [typicalFill_of_no_none hall, Option.some.injEq] at hw
    rw [cell_of_getCol hcol, ← hw, List.getD_eq_getElem?_getD,
      List.getElem?_map, hFi]
    rfl
  · intro hm
    rw [finalCol, fillColMedian_of_median_none hm, typicalFill] at hw
    have hany : (featColumn t reg c).any (fun v => v.isNone) = true := by
      rw [List.any_eq_true]
      exact ⟨none, List.getElem?_mem hFi, rfl⟩
    rw [if_pos hany] at hw
    cases htv : TYPICAL_VALUES c <;> rw [htv] at hw
    · exact absurd hw (by simp)
    · rw [Option.some.injEq] at hw
      refine ⟨_, rfl, ?_⟩
      rw [cell_of_getCol hcol, ← hw, List.getD_eq_getElem?_getD,
        List.getElem?_map, hFi]
      rfl

/-- C4 witness: on `egNoObs`, patient 1 has no `Age` observation and `Age`
is average-only; the output median of the `Age` column is 60 (from patient
2) and patient 1's `Age` cell is 60. -/
theorem avg_fallback_tiers_witness : egNoObsOut.cell "Age" 0 = some 60 :=
  (avg_fallback_tiers egNoObs egNoObsOut ["Hgb"] "Age" 0 1 (by decide)
    (by decide) (by decide) (by decide) (by decide) (by decide)).1 60
    (by decide)

/-- C5: for a patient whose trend-eligible column reads `[1, NaN, 3, 4]`
(missing count 1 ≤ 8), fill-between yields `[1, 2, 3, 4]`, the
least-squares slope over the synthetic indices `0..3` is 1, and 1 is the
value stored in the patient's `<column>_trend` output cell. -/
theorem trend_series_slope (t : ObsTable) (o : OutTable) (reg : List String)
    (c : String) (i : Nat) (p : ℚ)
    (hs : patientSeries t p c = [some 1, none, some 3, some 4])
    (h : missing_data_imputer t = some o)
    (hreg : columnsForRegression t = some reg) (hc : c ∈ reg)
    (hnf : (c ++ "_trend") ∉ t.featureCols)
    (hp : (pidsOf t)[i]? = some p) :
    fillBetween (patientSeries t p c) = [some 1, some 2, some 3, some 4] ∧
    olsSlope [1, 2, 3, 4] = 1 ∧
    trendCell t p c = some (some 1) ∧
    o.cell (c ++ "_trend") i = some 1 := by
  have h1 : fillBetween (patientSeries t p c) =
      [some 1, some 2, some 3, some 4] := by
    rw [hs]
    decide
  have h2 : olsSlope [1, 2, 3, 4] = 1 := by decide
  have h3 : trendCell t p c = some (some 1) := by
    rw [trendCell, naCount, hs]
    decide
  refine ⟨h1, h2, h3, ?_⟩
  obtain ⟨a, cs, ha, hcs, ho⟩ := imputer_some h
  obtain ⟨reg', tp, hreg', htp, haa⟩ := stageA_some ha
  rw [hreg] at hreg'
  cases hreg'
  subst haa
  obtain ⟨tcol, htc, htfind⟩ := trendPart_find? htp hc
  have hfind : ((t.featureCols.map (fun d => (d, featColumn t reg d))) ++
      tp).find? (fun nc => nc.1 == (c ++ "_trend")) =
        some (c ++ "_trend", tcol) := by
    rw [List.find?_append, find?_map_pair_of_not_mem _ hnf, htfind]
    rfl
  obtain ⟨w, hw, hwf⟩ := seqCols_find? hcs hfind
  have hgc : o.getCol (c ++ "_trend") = some w := by
    rw [ho, OutTable.getCol]
    simp only
    rw [hwf]
    rfl
  rw [trendColumn] at htc
  cases htv : trendVals t c (pidsOf t) <;> rw [htv] at htc
  · exact absurd htc (by simp)
  · rename_i vs
    simp only [Option.map, Option.some.injEq] at htc
    obtain ⟨v, hvi, hvcell⟩ := trendVals_getElem? htv hp
    have hv1 : v = some 1 := by
      have := hvcell.symm.trans h3
      exact Option.some.inj this
    subst hv1
    have htcI : tcol[i]? = some (some 1) := by
      rw [← htc, List.getElem?_map, hvi]
      rfl
    have hne : tcol.filterMap id ≠ [] := by
      intro hnil
      have := List.filterMap_eq_nil_iff.mp hnil (some 1)
        (List.getElem?_mem htcI)
      simp at this
    cases hm : median (tcol.filterMap id) with
    | none => exact absurd (median_eq_none.mp hm) hne
    | some m =>
      rw [finalCol, fillColMedian_of_median_some hm] at hw
      have hall : ∀ x ∈ tcol.map (fun v => some (v.getD m)),
          x.isSome = true := by
        intro x hx
        obtain ⟨y, _, hyx⟩ := List.mem_map.mp hx
        rw [← hyx]
        rfl
      rw [typicalFill_of_no_none hall, Option.some.injEq] at hw
      rw [cell_of_getCol hgc, ← hw, List.getD_eq_getElem?_getD,
        List.getElem?_map, htcI]
      rfl

/-- C5 witness: the imputer applied to `egSlope` stores 1 in the
`Hgb_trend` cell of its single patient. -/
theorem trend_series_slope_witness :
    egSlopeOut.cell ("Hgb" ++ "_trend") 0 = some 1 :=
  (trend_series_slope egSlope egSlopeOut ["Hgb"] "Hgb" 0 1 (by decide)
    (by decide) (by decide) (by decide) (by decide) (by decide)).2.2.2

end Imputer
